import Mathlib

/-!
# Verification of the edg_acoustics mesh module

A shallow embedding of `edg_acoustics/mesh.py`:

* `Mesh.__compute_element_connectivity` (mesh.py lines 148-266): the sort-based
  face-matching algorithm producing the adjacency tables `EToE` and `EToF`.
  The algorithm builds the 4N face rows by stacking the four canonical local
  faces of every tetrahedron (`numpy.vstack`, row `s` holds local face
  `s / N` of element `s % N`), sorts each row's three vertices ascending,
  keys every row by Python's `hash(tuple(row))`, sorts the 4N face slots by
  that key (`numpy.argsort`), pairs consecutive slots with equal keys, and
  writes the cross references into the self-initialized `EToE`/`EToF` via
  numpy fancy-index assignment (right-hand side read first, duplicate
  targets resolved last-write-wins).
  Python's tuple hash (CPython >= 3.8, the xxHash-based `tuplehash`) and the
  hash of a non-negative int (reduction mod 2^61 - 1) are embedded exactly,
  as unsigned 64-bit values; `argsort`'s tie order is unspecified, it is
  modeled by a stable insertion sort on the unsigned keys (the pairing and
  the final arrays only depend on equal keys being contiguous plus the
  within-run order, which the claims' hypotheses make irrelevant).

* `Mesh.__init_from_file` (lines 95-126): label-consistency validation and
  boundary partitioning, over the raw arrays delivered by `meshio.read`
  (vertex coordinates are embedded with integer entries; the claims
  considered here do not depend on the coordinate arithmetic).

* `Mesh.__eq__` (lines 129-142) including Python's short-circuit `and`
  semantics: possible `KeyError` from `other.BC_triangles[key]` is modeled
  by an `Option` result.

* A small heap model for the frame claim that the connectivity computation
  never mutates its input array (`numpy.vstack` allocates a fresh array and
  the in-place `ndarray.sort` is applied to that copy only).
-/

namespace EdgAcoustics

/-! ## Python hashing primitives (CPython tuplehash on 3 non-negative ints) -/

/-- 2^64, the modulus of CPython's `Py_uhash_t` arithmetic. -/
def U64 : Nat := 18446744073709551616

/-- CPython hash of a non-negative `int`: reduction modulo the Mersenne
prime 2^61 - 1. -/
def pyHashInt (n : Nat) : Nat := n % 2305843009213693951

def xxPrime1 : Nat := 11400714785074694791

def xxPrime2 : Nat := 14029467366897019727

def xxPrime5 : Nat := 2870177450012600261

/-- `_PyHASH_XXROTATE`: rotate a 64-bit value left by 31 bits. -/
def xxRotate (x : Nat) : Nat := ((x <<< 31) % U64) ||| (x >>> 33)

/-- One accumulation step of CPython's `tuplehash`. -/
def hashStep (acc lane : Nat) : Nat :=
  (xxRotate ((acc + lane * xxPrime2) % U64) * xxPrime1) % U64

/-- CPython's `hash((a, b, c))` for non-negative ints `a b c`, represented as
an unsigned 64-bit value (the signed cast is a bijection, so hash equality is
unaffected). -/
def pyTupleHash3 (a b c : Nat) : Nat :=
  let acc := hashStep (hashStep (hashStep xxPrime5 (pyHashInt a)) (pyHashInt b)) (pyHashInt c)
  let acc := (acc + (3 ^^^ (xxPrime5 ^^^ 3527539))) % U64
  if acc = U64 - 1 then 1546275796 else acc

/-! ## Connectivity model (`Mesh.__compute_element_connectivity`) -/

/-- One row of the `tets` array: the 4 vertex indices of a tetrahedron. -/
structure Tet where
  v0 : Nat
  v1 : Nat
  v2 : Nat
  v3 : Nat
deriving DecidableEq

def defaultTet : Tet := ⟨0, 0, 0, 0⟩

/-- Ascending sort of three naturals, modeling `face_vertices.sort(axis=-1)`
on one row. -/
def sort3 (a b c : Nat) : Nat × Nat × Nat :=
  if a ≤ b then
    if b ≤ c then (a, b, c)
    else if a ≤ c then (a, c, b)
    else (c, a, b)
  else
    if a ≤ c then (b, a, c)
    else if b ≤ c then (b, c, a)
    else (c, b, a)

/-- The canonical local faces of a tetrahedron (mesh.py line 189):
face 0 = vertices [0,1,2], face 1 = [0,1,3], face 2 = [1,2,3],
face 3 = [0,2,3]. -/
def tetFace (t : Tet) : Nat → Nat × Nat × Nat
  | 0 => (t.v0, t.v1, t.v2)
  | 1 => (t.v0, t.v1, t.v3)
  | 2 => (t.v1, t.v2, t.v3)
  | _ => (t.v0, t.v2, t.v3)

/-- Row `s` of the vertex-sorted `face_vertices` array: the `vstack` of the
four face blocks puts local face `s / N` of element `s % N` in row `s`
(matching the `(4, N)` layout used by `numpy.unravel_index`). -/
def faceRow (tets : List Tet) (s : Nat) : Nat × Nat × Nat :=
  sort3 (tetFace (tets.getD (s % tets.length) defaultTet) (s / tets.length)).1
    (tetFace (tets.getD (s % tets.length) defaultTet) (s / tets.length)).2.1
    (tetFace (tets.getD (s % tets.length) defaultTet) (s / tets.length)).2.2

/-- `face_ids[s] = hash(tuple(face_vertices[s]))` (mesh.py line 218). -/
def faceKey (tets : List Tet) (s : Nat) : Nat :=
  pyTupleHash3 (faceRow tets s).1 (faceRow tets s).2.1 (faceRow tets s).2.2

/-- Comparison of face slots by their hash key, the order used by
`numpy.argsort(face_ids)`. -/
def slotLE (tets : List Tet) (a b : Nat) : Prop := faceKey tets a ≤ faceKey tets b

instance (tets : List Tet) : DecidableRel (slotLE tets) := fun _ _ => Nat.decLe _ _

instance (tets : List Tet) : IsTotal Nat (slotLE tets) := ⟨fun _ _ => Nat.le_total _ _⟩

instance (tets : List Tet) : IsTrans Nat (slotLE tets) := ⟨fun _ _ _ => Nat.le_trans⟩

instance (tets : List Tet) : IsRefl Nat (slotLE tets) := ⟨fun _ => Nat.le_refl _⟩

/-- `face_vertices_idx[face_ids_sort_indices]`: the face slots `0 .. 4N-1`
reordered so that their keys are ascending. -/
def sortedSlots (tets : List Tet) : List Nat :=
  List.insertionSort (slotLE tets) (List.range (4 * tets.length))

/-- The consecutive equal-key pairs of a slot list: models
`numpy.where(face_ids[0:-1] == face_ids[1:])` on the sorted ids, each match
index `i` giving the (L, R) slot pair
`(face_vertices_idx[i], face_vertices_idx[i+1])`. -/
def adjPairs (key : Nat → Nat) : List Nat → List (Nat × Nat)
  | a :: b :: rest => (if key a = key b then [(a, b)] else []) ++ adjPairs key (b :: rest)
  | _ => []

def connPairs (tets : List Tet) : List (Nat × Nat) :=
  adjPairs (faceKey tets) (sortedSlots tets)

/-- Numpy fancy-index assignment `A[targets] = values` with the right-hand
side fully evaluated first: a list of (target, value) writes applied in
order, later writes overwriting earlier ones. -/
def applyWrites (ws : List (Nat × Nat)) (init : Nat → Nat) : Nat → Nat :=
  ws.foldl (fun g p s => if s = p.1 then p.2 else g s) init

/-- The write list of
`EToE[unravel(hstack([L, R]))] = EToE[unravel(hstack([R, L]))]`:
the right-hand side reads the initialization `EToE[f, e] = e`, i.e. the
element index `slot % N`. -/
def etoeWrites (tets : List Tet) : List (Nat × Nat) :=
  ((connPairs tets).map fun p => (p.1, p.2 % tets.length)) ++
    ((connPairs tets).map fun p => (p.2, p.1 % tets.length))

/-- The write list of
`EToF[unravel(vstack([L, R]))] = EToF[unravel(vstack([R, L]))]`:
the right-hand side reads the initialization `EToF[f, e] = f`, i.e. the
local face index `slot / N` (the `vstack` flattens in the same row-major
order as the `hstack` above). -/
def etofWrites (tets : List Tet) : List (Nat × Nat) :=
  ((connPairs tets).map fun p => (p.1, p.2 / tets.length)) ++
    ((connPairs tets).map fun p => (p.2, p.1 / tets.length))

/-- The final `EToE` array, flattened: slot `f * N + e` holds `EToE[f, e]`. -/
def etoeFlat (tets : List Tet) : Nat → Nat :=
  applyWrites (etoeWrites tets) (fun s => s % tets.length)

/-- The final `EToF` array, flattened: slot `f * N + e` holds `EToF[f, e]`. -/
def etofFlat (tets : List Tet) : Nat → Nat :=
  applyWrites (etofWrites tets) (fun s => s / tets.length)

/-- `EToE[f, e]` returned by `Mesh.__compute_element_connectivity`. -/
def EToE (tets : List Tet) (f e : Nat) : Nat := etoeFlat tets (f * tets.length + e)

/-- `EToF[f, e]` returned by `Mesh.__compute_element_connectivity`. -/
def EToF (tets : List Tet) (f e : Nat) : Nat := etofFlat tets (f * tets.length + e)

/-- `EToE` materialized as a (4, N) matrix. -/
def etoeMatrix (tets : List Tet) : List (List Nat) :=
  (List.range 4).map fun f => (List.range tets.length).map fun e => EToE tets f e

/-- `EToF` materialized as a (4, N) matrix. -/
def etofMatrix (tets : List Tet) : List (List Nat) :=
  (List.range 4).map fun f => (List.range tets.length).map fun e => EToF tets f e

/-- The hash keys are collision-free on this input: slots whose sorted
vertex triples differ receive different `face_ids`. -/
def collisionFree (tets : List Tet) : Prop :=
  ∀ s1, s1 < 4 * tets.length → ∀ s2, s2 < 4 * tets.length →
    faceKey tets s1 = faceKey tets s2 → faceRow tets s1 = faceRow tets s2

/-- Number of face slots carrying the same sorted vertex triple as slot `s`. -/
def faceMultiplicity (tets : List Tet) (s : Nat) : Nat :=
  ((List.range (4 * tets.length)).filter fun s2 =>
    decide (faceRow tets s2 = faceRow tets s)).length

/-- Every face vertex triple occurs at most twice among the 4N face slots. -/
def multAtMost2 (tets : List Tet) : Prop :=
  ∀ s, s < 4 * tets.length → faceMultiplicity tets s ≤ 2

/-- No two distinct face slots of the same element share a vertex triple. -/
def facesOfDistinctElems (tets : List Tet) : Prop :=
  ∀ s1, s1 < 4 * tets.length → ∀ s2, s2 < 4 * tets.length → s1 ≠ s2 →
    faceRow tets s1 = faceRow tets s2 → s1 % tets.length ≠ s2 % tets.length

instance (tets : List Tet) : Decidable (collisionFree tets) := by
  unfold collisionFree; infer_instance

instance (tets : List Tet) : Decidable (multAtMost2 tets) := by
  unfold multAtMost2; infer_instance

instance (tets : List Tet) : Decidable (facesOfDistinctElems tets) := by
  unfold facesOfDistinctElems; infer_instance

/-! ## Concrete inputs used by the scenario claims and the counterexamples -/

/-- Two tetrahedra sharing the face with vertices 1, 2, 3. -/
def tetsTwo : List Tet := [⟨0, 1, 2, 3⟩, ⟨1, 2, 3, 4⟩]

/-- A single isolated tetrahedron. -/
def tetsSingle : List Tet := [⟨0, 1, 2, 3⟩]

/-- Two tetrahedra sharing the face with vertices 0, 1, 2 (both as their
local face 0). -/
def tetsTwoSame : List Tet := [⟨0, 1, 2, 3⟩, ⟨0, 1, 2, 4⟩]

/-- A vertex index with `hash((6, 24, collV)) = hash((0, 1, 2))` in CPython:
a genuine collision of the tuple hash used for the face keys. -/
def collV : Nat := 805634993865481243

/-- Two tetrahedra with no shared face, but whose local faces 0 carry the
colliding vertex triples (0,1,2) and (6,24,collV). -/
def tetsColl2 : List Tet := [⟨0, 1, 2, 3⟩, ⟨6, 24, collV, 30⟩]

/-- Three tetrahedra: a genuine interior face (0,1,2) shared by elements 0
and 1, plus element 2 whose face (6,24,collV) hash-collides with it. Every
face vertex set occurs at most twice. -/
def tetsColl3 : List Tet := [⟨0, 1, 2, 3⟩, ⟨0, 1, 2, 4⟩, ⟨6, 24, collV, 30⟩]

/-- The transposition of two vertex indices, a permutation of the global
vertex namespace. -/
def swapTwo (i j n : Nat) : Nat := if n = i then j else if n = j then i else n

def relabelTet (p : Nat → Nat) (t : Tet) : Tet := ⟨p t.v0, p t.v1, p t.v2, p t.v3⟩

/-- Consistent relabeling of the global vertex index namespace. -/
def relabel (p : Nat → Nat) (tets : List Tet) : List Tet := tets.map (relabelTet p)

/-! ## Mesh construction (`Mesh.__init_from_file`) and equality (`Mesh.__eq__`) -/

/-- A boundary triangle: 3 vertex indices. -/
abbrev Tri := Nat × Nat × Nat

/-- The raw data delivered by `meshio.read`: vertex coordinates
(`mesh_data.points`, entries embedded as integers), the parallel arrays of
physical-label codes and boundary triangles
(`mesh_data.cell_data_dict['gmsh:physical']['triangle']` and
`mesh_data.cells_dict['triangle']`), and the tetrahedra
(`mesh_data.cells_dict['tetra']`). -/
structure RawMeshData where
  points : List (List Int)
  triCodes : List Int
  triangles : List Tri
  tetra : List Tet

/-- The `Mesh` object's attributes. `BC_labels` dictionaries are embedded as
association lists in insertion order (Python dicts preserve insertion order
and have pairwise distinct keys). -/
structure Mesh where
  N_vertices : Nat
  vertices : List (List Int)
  N_BC_triangles : List (String × Nat)
  BC_triangles : List (String × List Tri)
  N_tets : Nat
  tets : List Tet
  EToE : List (List Nat)
  EToF : List (List Nat)

/-- Python's `sorted` on a list of ints. -/
def sortInts (l : List Int) : List Int := List.insertionSort (· ≤ ·) l

/-- `sorted(numpy.unique(l))`: the distinct values in ascending order. -/
def dedupSorted (l : List Int) : List Int := (sortInts l).dedup

def bcErrorMsg : String :=
  "[edg_acoustics.Mesh] All BC labels must be present in the mesh and all labels in the mesh must be present in BC_labels."

/-- `Mesh.__init_from_file` (mesh.py lines 95-126) after `meshio.read`: the
label-consistency check `sorted(BC_labels.values()) == sorted(numpy.unique(codes))`
raises `ValueError` before the boundary partitioning and the connectivity
computation, so on mismatch no (partial) `Mesh` object is produced. -/
def initFromFile (md : RawMeshData) (BC_labels : List (String × Int)) : Except String Mesh :=
  let labelsInMesh := dedupSorted md.triCodes
  let labelsInInput := sortInts (BC_labels.map fun kv => kv.2)
  if labelsInInput = labelsInMesh then
    Except.ok
      { N_vertices := md.points.length
        vertices := md.points
        N_BC_triangles := BC_labels.map fun kv =>
          (kv.1, ((md.triCodes.zip md.triangles).filter fun ct => decide (ct.1 = kv.2)).length)
        BC_triangles := BC_labels.map fun kv =>
          (kv.1, ((md.triCodes.zip md.triangles).filter fun ct =>
            decide (ct.1 = kv.2)).map fun ct => ct.2)
        N_tets := md.tetra.length
        tets := md.tetra
        EToE := etoeMatrix md.tetra
        EToF := etofMatrix md.tetra }
  else Except.error bcErrorMsg

def exceptIsOk : Except String Mesh → Bool
  | Except.ok _ => true
  | Except.error _ => false

/-- The set of numeric codes among the raw boundary triangles equals the set
of values of the caller-supplied label dictionary (the condition the claim
says controls the `ValueError`). -/
def sameCodeSets (md : RawMeshData) (BC_labels : List (String × Int)) : Prop :=
  (∀ c ∈ md.triCodes, c ∈ BC_labels.map fun kv => kv.2) ∧
    (∀ kv ∈ BC_labels, kv.2 ∈ md.triCodes)

instance (md : RawMeshData) (bc : List (String × Int)) : Decidable (sameCodeSets md bc) := by
  unfold sameCodeSets; infer_instance

/-- Python dict lookup `d[k]` on an association list (first matching key). -/
def lookupStr {α : Type} (k : String) : List (String × α) → Option α
  | [] => none
  | kv :: rest => if kv.1 = k then some kv.2 else lookupStr k rest

/-- Python `==` on the `N_BC_triangles` dicts: same keys with equal values. -/
def dictEqCounts (d1 d2 : List (String × Nat)) : Prop :=
  (∀ kv ∈ d1, lookupStr kv.1 d2 = some kv.2) ∧ (∀ kv ∈ d2, lookupStr kv.1 d1 = some kv.2)

instance (d1 d2 : List (String × Nat)) : Decidable (dictEqCounts d1 d2) := by
  unfold dictEqCounts; infer_instance

/-- `all(numpy.array_equal(item, other.BC_triangles[key]) for key, item in
self.BC_triangles.items())`: the generator evaluates the dict lookup first,
so a missing key raises `KeyError` (modeled by `none`), and stops at the
first `False`. -/
def bcTrianglesEq : List (String × List Tri) → List (String × List Tri) → Option Bool
  | [], _ => some true
  | kv :: rest, other =>
    match lookupStr kv.1 other with
    | none => none
    | some arr2 => if kv.2 = arr2 then bcTrianglesEq rest other else some false

/-- `Mesh.__eq__` on two `Mesh` operands (mesh.py lines 129-142), with
Python's short-circuit `and`: the per-label triangle comparison (which can
raise `KeyError`, modeled by `none`) is only evaluated once the counts, the
`N_BC_triangles` dicts and the vertex/tet arrays have all compared equal. -/
def meshEqOpt (m1 m2 : Mesh) : Option Bool :=
  if m1.N_vertices = m2.N_vertices ∧ m1.N_tets = m2.N_tets ∧
      dictEqCounts m1.N_BC_triangles m2.N_BC_triangles ∧
      m1.vertices = m2.vertices ∧ m1.tets = m2.tets then
    bcTrianglesEq m1.BC_triangles m2.BC_triangles
  else some false

/-- An arbitrary Python value handed to `Mesh.__eq__` as the right operand. -/
inductive PyValue where
  | mesh (m : Mesh)
  | pyOther (descr : String)

/-- `Mesh.__eq__` at the public interface: the `isinstance` branch returns
`False` for any non-`Mesh` operand without evaluating anything else. -/
def meshEqPy (m : Mesh) (v : PyValue) : Option Bool :=
  match v with
  | PyValue.mesh m2 => meshEqOpt m m2
  | PyValue.pyOther _ => some false

/-- The structural invariant `__init_from_file` establishes: the
`BC_triangles` and `N_BC_triangles` dicts are populated in the same loop
over `BC_labels`, hence have identical key sequences, and Python dict keys
are pairwise distinct. -/
def meshWF (m : Mesh) : Prop :=
  m.BC_triangles.map (fun kv => kv.1) = m.N_BC_triangles.map (fun kv => kv.1) ∧
    (m.N_BC_triangles.map (fun kv => kv.1)).Nodup

instance (m : Mesh) : Decidable (meshWF m) := by
  unfold meshWF; infer_instance

/-- The components the specification says take part in mesh equality:
counts, coordinate and tet arrays, and the per-label triangle counts and
arrays (as finite maps); the adjacency arrays are absent. -/
def rawComponentsMatch (m1 m2 : Mesh) : Prop :=
  m1.N_vertices = m2.N_vertices ∧ m1.N_tets = m2.N_tets ∧
    (∀ k, lookupStr k m1.N_BC_triangles = lookupStr k m2.N_BC_triangles) ∧
    m1.vertices = m2.vertices ∧ m1.tets = m2.tets ∧
    (∀ k, lookupStr k m1.BC_triangles = lookupStr k m2.BC_triangles)

/-- Replace one coordinate of one vertex. -/
def setCoord (m : Mesh) (i j : Nat) (x : Int) : Mesh :=
  { m with vertices := m.vertices.set i ((m.vertices.getD i []).set j x) }

/-! ## Concrete construction and equality inputs -/

/-- Raw data whose boundary triangle carries code 1. -/
def mdDup : RawMeshData :=
  { points := [[0, 0, 0], [1, 0, 0], [0, 1, 0]], triCodes := [1], triangles := [(0, 1, 2)],
    tetra := [] }

/-- A label dictionary assigning the same numeric code to two labels: its
value set equals the mesh's code set, yet construction fails. -/
def bcDup : List (String × Int) := [("a", 1), ("b", 1)]

/-- A small well-formed mesh object. -/
def meshA : Mesh :=
  { N_vertices := 5, vertices := [[0, 0, 0], [1, 0, 0], [0, 1, 0], [0, 0, 1], [1, 1, 1]],
    N_BC_triangles := [("wall", 2), ("roof", 1)],
    BC_triangles := [("wall", [(0, 1, 2), (0, 1, 3)]), ("roof", [(1, 2, 3)])],
    N_tets := 2, tets := [⟨0, 1, 2, 3⟩, ⟨1, 2, 3, 4⟩],
    EToE := etoeMatrix [⟨0, 1, 2, 3⟩, ⟨1, 2, 3, 4⟩],
    EToF := etofMatrix [⟨0, 1, 2, 3⟩, ⟨1, 2, 3, 4⟩] }

/-- The same raw data as `meshA` with the adjacency arrays recomputed
differently (overwritten with junk): equality must not see the difference. -/
def meshB : Mesh :=
  { meshA with EToE := [[9, 9], [9, 9], [9, 9], [9, 9]], EToF := [[9, 9], [9, 9], [9, 9], [9, 9]] }

/-! ## Heap model for the connectivity computation (input not mutated) -/

/-- A numpy array living in memory during `__compute_element_connectivity`. -/
inductive NpValue where
  | tetArray (l : List Tet)
  | faceArray (l : List (Nat × Nat × Nat))
  | natArray (l : List Nat)

/-- The heap: array objects addressed by allocation index. -/
abbrev Heap := List NpValue

def readTets : Option NpValue → List Tet
  | some (NpValue.tetArray l) => l
  | _ => []

/-- The rows of `numpy.vstack([tets[:,[0,1,2]], tets[:,[0,1,3]],
tets[:,[1,2,3]], tets[:,[0,2,3]]])` before the in-place vertex sort. -/
def faceVerticesUnsorted (tets : List Tet) : List (Nat × Nat × Nat) :=
  (List.range (4 * tets.length)).map fun s =>
    tetFace (tets.getD (s % tets.length) defaultTet) (s / tets.length)

/-- `Mesh.__compute_element_connectivity` as a sequence of heap effects.
`numpy.vstack` always allocates a fresh array, so the in-place
`face_vertices.sort(axis=-1)` updates that fresh allocation; the fancy-index
assignments update the freshly allocated `EToE`/`EToF`; every other step
either reads or allocates. The input `tets` array at `tetsRef` is never
written. -/
def computeConnectivityHeap (h : Heap) (tetsRef : Nat) : Heap :=
  let tets := readTets h[tetsRef]?
  let fvRef := h.length
  let h1 := h ++ [NpValue.faceArray (faceVerticesUnsorted tets)]
  let h2 := h1.set fvRef (NpValue.faceArray ((List.range (4 * tets.length)).map (faceRow tets)))
  let h3 := h2 ++ [NpValue.natArray (List.range (4 * tets.length))]
  let etoeRef := h3.length
  let h4 := h3 ++ [NpValue.natArray ((List.range (4 * tets.length)).map fun s => s % tets.length)]
  let etofRef := h4.length
  let h5 := h4 ++ [NpValue.natArray ((List.range (4 * tets.length)).map fun s => s / tets.length)]
  let h6 := h5 ++ [NpValue.natArray ((sortedSlots tets).map (faceKey tets))]
  let h7 := h6 ++ [NpValue.faceArray ((sortedSlots tets).map (faceRow tets))]
  let h8 := h7 ++ [NpValue.natArray (sortedSlots tets)]
  let h9 := h8.set etoeRef (NpValue.natArray ((List.range (4 * tets.length)).map (etoeFlat tets)))
  h9.set etofRef (NpValue.natArray ((List.range (4 * tets.length)).map (etofFlat tets)))

/-- Two values sit next to each other (in this order) somewhere in a list. -/
def seg2 (x y : Nat) (l : List Nat) : Prop := ∃ u v, l = u ++ x :: y :: v

/-! # Theorems -/

/-! ## The write semantics of numpy fancy-index assignment -/

theorem applyWrites_cons (w : Nat × Nat) (ws : List (Nat × Nat)) (init : Nat → Nat) :
    applyWrites (w :: ws) init = applyWrites ws (fun s => if s = w.1 then w.2 else init s) := rfl

theorem applyWrites_eq_of_not_target (ws : List (Nat × Nat)) (init : Nat → Nat) (s : Nat)
    (h : ∀ p ∈ ws, p.1 ≠ s) : applyWrites ws init s = init s := by
  induction ws generalizing init with
  | nil => rfl
  | cons w ws ih =>
      rw [applyWrites_cons, ih _ (fun p hp => h p (List.mem_cons_of_mem _ hp))]
      exact if_neg fun hs => h w (List.mem_cons_self _ _) hs.symm

theorem applyWrites_eq_of_uniform (ws : List (Nat × Nat)) (init : Nat → Nat) (s v : Nat)
    (hu : ∀ p ∈ ws, p.1 = s → p.2 = v) (hbase : (s, v) ∈ ws ∨ init s = v) :
    applyWrites ws init s = v := by
  induction ws generalizing init with
  | nil =>
      rcases hbase with h | h
      · simp at h
      · exact h
  | cons w ws ih =>
      rw [applyWrites_cons]
      refine ih _ (fun p hp => hu p (List.mem_cons_of_mem _ hp)) ?_
      by_cases hw : w.1 = s
      · right
        rw [if_pos hw.symm]
        exact hu w (List.mem_cons_self _ _) hw
      · rcases hbase with h | h
        · rcases List.mem_cons.mp h with h1 | h1
          · exact absurd (congrArg Prod.fst h1.symm) hw
          · exact Or.inl h1
        · right
          rw [if_neg fun hs => hw hs.symm]
          exact h

/-! ## The consecutive equal-key pairs of the sorted slot list -/

theorem adjPairs_cons_cons (key : Nat → Nat) (a b : Nat) (l : List Nat) :
    adjPairs key (a :: b :: l) =
      (if key a = key b then [(a, b)] else []) ++ adjPairs key (b :: l) := rfl

theorem seg2_mem_adjPairs (key : Nat → Nat) (x y : Nat) (l : List Nat)
    (hs : seg2 x y l) (hk : key x = key y) : (x, y) ∈ adjPairs key l := by
  obtain ⟨u, v, rfl⟩ := hs
  induction u with
  | nil => simp [adjPairs_cons_cons, hk]
  | cons a u ih =>
      rw [List.cons_append]
      cases hu : u ++ x :: y :: v with
      | nil => simp at hu
      | cons b rest =>
          rw [adjPairs_cons_cons]
          refine List.mem_append_right _ ?_
          rw [← hu]
          exact ih

theorem mem_adjPairs_seg2 (key : Nat → Nat) (x y : Nat) (l : List Nat)
    (hm : (x, y) ∈ adjPairs key l) : key x = key y ∧ seg2 x y l := by
  induction l with
  | nil => simp [adjPairs] at hm
  | cons a l ih =>
      cases l with
      | nil => simp [adjPairs] at hm
      | cons b rest =>
          rw [adjPairs_cons_cons] at hm
          rcases List.mem_append.mp hm with h1 | h2
          · by_cases hk : key a = key b
            · rw [if_pos hk] at h1
              simp only [List.mem_singleton, Prod.mk.injEq] at h1
              obtain ⟨rfl, rfl⟩ := h1
              exact ⟨hk, [], rest, rfl⟩
            · rw [if_neg hk] at h1
              simp at h1
          · obtain ⟨hk, u, v, huv⟩ := ih h2
            exact ⟨hk, a :: u, v, by rw [List.cons_append, huv]⟩

theorem seg2_facts (x y : Nat) (l : List Nat) (hs : seg2 x y l) (hnd : l.Nodup) :
    x ∈ l ∧ y ∈ l ∧ x ≠ y := by
  obtain ⟨u, v, rfl⟩ := hs
  refine ⟨by simp, by simp, ?_⟩
  have h2 : (x :: y :: v).Nodup := ((List.nodup_append.mp hnd).2).1
  intro h
  exact (List.nodup_cons.mp h2).1 (h ▸ List.mem_cons_self y v)

theorem seg2_of_get (l : List Nat) (i : Nat) (h : i + 1 < l.length) :
    seg2 (l.get ⟨i, Nat.lt_of_succ_lt h⟩) (l.get ⟨i + 1, h⟩) l := by
  induction l generalizing i with
  | nil => simp at h
  | cons a l ih =>
      cases i with
      | zero =>
          cases l with
          | nil => simp at h
          | cons b rest => exact ⟨[], rest, rfl⟩
      | succ i =>
          have h2 : i + 1 < l.length := by simpa using h
          obtain ⟨u, v, hl⟩ := ih i h2
          refine ⟨a :: u, v, ?_⟩
          simp only [List.get_cons_succ]
          rw [List.cons_append]
          exact congrArg (a :: ·) hl

/-! ## Structure of the sorted slot list -/

theorem sortedSlots_perm (tets : List Tet) :
    List.Perm (sortedSlots tets) (List.range (4 * tets.length)) :=
  List.perm_insertionSort _ _

theorem sortedSlots_nodup (tets : List Tet) : (sortedSlots tets).Nodup :=
  (sortedSlots_perm tets).nodup_iff.mpr (List.nodup_range _)

theorem mem_sortedSlots (tets : List Tet) (s : Nat) :
    s ∈ sortedSlots tets ↔ s < 4 * tets.length := by
  rw [(sortedSlots_perm tets).mem_iff, List.mem_range]

theorem sortedSlots_sorted (tets : List Tet) : (sortedSlots tets).Sorted (slotLE tets) :=
  List.sorted_insertionSort _ _

theorem key_squeeze (tets : List Tet) (i j m : Fin (sortedSlots tets).length)
    (him : i.val ≤ m.val) (hmj : m.val ≤ j.val)
    (hk : faceKey tets ((sortedSlots tets).get i) = faceKey tets ((sortedSlots tets).get j)) :
    faceKey tets ((sortedSlots tets).get m) = faceKey tets ((sortedSlots tets).get i) := by
  have h1 : slotLE tets ((sortedSlots tets).get i) ((sortedSlots tets).get m) :=
    (sortedSlots_sorted tets).rel_get_of_le (Fin.le_def.mpr him)
  have h2 : slotLE tets ((sortedSlots tets).get m) ((sortedSlots tets).get j) :=
    (sortedSlots_sorted tets).rel_get_of_le (Fin.le_def.mpr hmj)
  have h2b : faceKey tets ((sortedSlots tets).get m) ≤ faceKey tets ((sortedSlots tets).get i) := by
    have h3 : faceKey tets ((sortedSlots tets).get m) ≤ faceKey tets ((sortedSlots tets).get j) := h2
    rw [hk]
    exact h3
  exact Nat.le_antisymm h2b h1

theorem exists_adjacent_pair (tets : List Tet) {s s2 : Nat}
    (hm1 : s ∈ sortedSlots tets) (hm2 : s2 ∈ sortedSlots tets) (hne : s ≠ s2)
    (hk : faceKey tets s = faceKey tets s2) :
    ∃ s3, ((s, s3) ∈ connPairs tets ∨ (s3, s) ∈ connPairs tets) ∧
      faceKey tets s3 = faceKey tets s ∧ s3 ∈ sortedSlots tets ∧ s3 ≠ s := by
  obtain ⟨i, hi⟩ := List.get_of_mem hm1
  obtain ⟨j, hj⟩ := List.get_of_mem hm2
  have hij : i.val ≠ j.val := by
    intro h
    exact hne (by rw [← hi, ← hj]; exact congrArg _ (Fin.ext h))
  rcases Nat.lt_or_ge i.val j.val with hlt | hge
  · -- the slot at position i+1 has the same key and pairs with s on the left
    have hi1 : i.val + 1 < (sortedSlots tets).length := Nat.lt_of_le_of_lt hlt j.isLt
    have hkeq : faceKey tets ((sortedSlots tets).get ⟨i.val + 1, hi1⟩) = faceKey tets s := by
      have := key_squeeze tets i j ⟨i.val + 1, hi1⟩ (Nat.le_succ _) hlt
        (by rw [hi, hj]; exact hk)
      rw [hi] at this
      exact this
    refine ⟨(sortedSlots tets).get ⟨i.val + 1, hi1⟩, Or.inl ?_, hkeq, List.get_mem _ _ _, ?_⟩
    · have hseg := seg2_of_get (sortedSlots tets) i.val hi1
      rw [show (⟨i.val, Nat.lt_of_succ_lt hi1⟩ : Fin (sortedSlots tets).length) = i
        from Fin.ext rfl, hi] at hseg
      exact seg2_mem_adjPairs _ _ _ _ hseg (by rw [hkeq])
    · intro h
      rw [← hi] at h
      have h2 := congrArg Fin.val ((sortedSlots_nodup tets).get_inj_iff.mp h)
      simp only at h2
      omega
  · -- here j < i: the slot at position i-1 has the same key, pairing s on the right
    have hji : j.val < i.val := Nat.lt_of_le_of_ne hge (fun h => hij h.symm)
    have hi0 : 0 < i.val := Nat.lt_of_le_of_lt (Nat.zero_le _) hji
    have hi1 : (i.val - 1) + 1 < (sortedSlots tets).length := by
      rw [Nat.sub_add_cancel hi0]; exact i.isLt
    have hkeq : faceKey tets ((sortedSlots tets).get ⟨i.val - 1, Nat.lt_of_succ_lt hi1⟩) =
        faceKey tets s := by
      have := key_squeeze tets j i ⟨i.val - 1, Nat.lt_of_succ_lt hi1⟩
        (by show j.val ≤ i.val - 1; omega) (by show i.val - 1 ≤ i.val; omega)
        (by rw [hi, hj]; exact hk.symm)
      rw [hj] at this
      rw [this]
      exact hk.symm
    refine ⟨(sortedSlots tets).get ⟨i.val - 1, Nat.lt_of_succ_lt hi1⟩, Or.inr ?_, hkeq,
      List.get_mem _ _ _, ?_⟩
    · have hseg := seg2_of_get (sortedSlots tets) (i.val - 1) hi1
      rw [show (⟨i.val - 1 + 1, hi1⟩ : Fin (sortedSlots tets).length) = i
        from Fin.ext (Nat.sub_add_cancel hi0), hi] at hseg
      exact seg2_mem_adjPairs _ _ _ _ hseg (by rw [hkeq])
    · intro h
      rw [← hi] at h
      have h2 := congrArg Fin.val ((sortedSlots_nodup tets).get_inj_iff.mp h)
      simp only at h2
      omega

/-! ## Uniqueness of the matched partner under the manifold hypotheses -/

theorem partner_unique (tets : List Tet) (hm : multAtMost2 tets)
    {s s2 z : Nat} (hs : s < 4 * tets.length) (hs2 : s2 < 4 * tets.length)
    (hz : z < 4 * tets.length) (hne : s ≠ s2) (hne2 : z ≠ s)
    (hrow : faceRow tets s2 = faceRow tets s) (hrowz : faceRow tets z = faceRow tets s) :
    z = s2 := by
  by_contra hzz
  have hsub : [s, s2, z] ⊆ (List.range (4 * tets.length)).filter fun s3 =>
      decide (faceRow tets s3 = faceRow tets s) := by
    intro x hx
    simp only [List.mem_cons, List.mem_singleton, List.not_mem_nil, or_false] at hx
    rcases hx with rfl | rfl | rfl <;>
      simp [List.mem_filter, List.mem_range, hs, hs2, hz, hrow, hrowz]
  have hnd : ([s, s2, z] : List Nat).Nodup := by
    refine List.nodup_cons.mpr ⟨?_, List.nodup_cons.mpr ⟨?_, List.nodup_singleton _⟩⟩
    · intro h
      rcases List.mem_cons.mp h with h1 | h1
      · exact hne h1
      · exact hne2 (List.mem_singleton.mp h1).symm
    · intro h
      exact hzz (List.mem_singleton.mp h).symm
  have hlen := (List.subperm_of_subset hnd hsub).length_le
  have hmult := hm s hs
  unfold faceMultiplicity at hmult
  simp only [List.length_cons, List.length_singleton] at hlen
  omega

theorem connPairs_facts (tets : List Tet) {p : Nat × Nat} (hp : p ∈ connPairs tets) :
    faceKey tets p.1 = faceKey tets p.2 ∧ p.1 ∈ sortedSlots tets ∧ p.2 ∈ sortedSlots tets ∧
      p.1 ≠ p.2 := by
  obtain ⟨x, y⟩ := p
  obtain ⟨hk, hseg⟩ := mem_adjPairs_seg2 _ _ _ _ hp
  obtain ⟨h1, h2, h3⟩ := seg2_facts _ _ _ hseg (sortedSlots_nodup tets)
  exact ⟨hk, h1, h2, h3⟩

/-! ## Characterization of the final arrays at paired and unpaired slots -/

theorem conn_write_value (tets : List Tet) (val : Nat → Nat) {s s2 : Nat}
    (hz : ∀ z, ((s, z) ∈ connPairs tets ∨ (z, s) ∈ connPairs tets) → z = s2)
    (hex : (s, s2) ∈ connPairs tets ∨ (s2, s) ∈ connPairs tets) (init : Nat → Nat) :
    applyWrites (((connPairs tets).map fun p => (p.1, val p.2)) ++
      ((connPairs tets).map fun p => (p.2, val p.1))) init s = val s2 := by
  apply applyWrites_eq_of_uniform
  · intro p hp hps
    rcases List.mem_append.mp hp with h | h
    · obtain ⟨q, hq, hqe⟩ := List.mem_map.mp h
      have h1 : q.1 = s := by rw [← hps, ← hqe]
      have h2 : p.2 = val q.2 := by rw [← hqe]
      have hmem : (s, q.2) ∈ connPairs tets := by rw [← h1]; simpa using hq
      rw [h2, hz q.2 (Or.inl hmem)]
    · obtain ⟨q, hq, hqe⟩ := List.mem_map.mp h
      have h1 : q.2 = s := by rw [← hps, ← hqe]
      have h2 : p.2 = val q.1 := by rw [← hqe]
      have hmem : (q.1, s) ∈ connPairs tets := by rw [← h1]; simpa using hq
      rw [h2, hz q.1 (Or.inr hmem)]
  · left
    rcases hex with h | h
    · exact List.mem_append_left _ (List.mem_map.mpr ⟨(s, s2), h, rfl⟩)
    · exact List.mem_append_right _ (List.mem_map.mpr ⟨(s2, s), h, rfl⟩)

theorem conn_no_write (tets : List Tet) (val : Nat → Nat) {s : Nat}
    (hnp : ∀ z, ¬((s, z) ∈ connPairs tets ∨ (z, s) ∈ connPairs tets)) (init : Nat → Nat) :
    applyWrites (((connPairs tets).map fun p => (p.1, val p.2)) ++
      ((connPairs tets).map fun p => (p.2, val p.1))) init s = init s := by
  apply applyWrites_eq_of_not_target
  intro p hp hps
  rcases List.mem_append.mp hp with h | h
  · obtain ⟨q, hq, hqe⟩ := List.mem_map.mp h
    have h1 : q.1 = s := by rw [← hps, ← hqe]
    have hmem : (s, q.2) ∈ connPairs tets := by rw [← h1]; simpa using hq
    exact hnp q.2 (Or.inl hmem)
  · obtain ⟨q, hq, hqe⟩ := List.mem_map.mp h
    have h1 : q.2 = s := by rw [← hps, ← hqe]
    have hmem : (q.1, s) ∈ connPairs tets := by rw [← h1]; simpa using hq
    exact hnp q.1 (Or.inr hmem)

theorem row_eq_key_eq (tets : List Tet) {s s2 : Nat} (h : faceRow tets s = faceRow tets s2) :
    faceKey tets s = faceKey tets s2 := by
  unfold faceKey
  rw [h]

/-- A slot with exactly one partner slot carrying the same vertex triple
ends up cross-referencing that partner: `EToE` gets the partner's element
`s2 % N`, `EToF` the partner's local face `s2 / N`. -/
theorem conn_paired (tets : List Tet) (hcf : collisionFree tets) (hm : multAtMost2 tets)
    {s s2 : Nat} (hs : s < 4 * tets.length) (hs2 : s2 < 4 * tets.length) (hne : s ≠ s2)
    (hrow : faceRow tets s = faceRow tets s2) :
    etoeFlat tets s = s2 % tets.length ∧ etofFlat tets s = s2 / tets.length := by
  have hkey : faceKey tets s = faceKey tets s2 := row_eq_key_eq tets hrow
  have hz : ∀ z, ((s, z) ∈ connPairs tets ∨ (z, s) ∈ connPairs tets) → z = s2 := by
    intro z hzp
    have hfacts : faceKey tets z = faceKey tets s ∧ z ∈ sortedSlots tets ∧ z ≠ s := by
      rcases hzp with h | h
      · obtain ⟨hk, _, hmz, hnez⟩ := connPairs_facts tets h
        exact ⟨hk.symm, hmz, fun hzs => hnez (hzs ▸ rfl)⟩
      · obtain ⟨hk, hmz, _, hnez⟩ := connPairs_facts tets h
        exact ⟨hk, hmz, hnez⟩
    obtain ⟨hk, hmz, hnez⟩ := hfacts
    have hzlt : z < 4 * tets.length := (mem_sortedSlots tets z).mp hmz
    have hrowz : faceRow tets z = faceRow tets s := hcf z hzlt s hs hk
    exact partner_unique tets hm hs hs2 hzlt hne hnez hrow.symm hrowz
  have hex : (s, s2) ∈ connPairs tets ∨ (s2, s) ∈ connPairs tets := by
    obtain ⟨s3, hp3, hk3, _, _⟩ := exists_adjacent_pair tets
      ((mem_sortedSlots tets s).mpr hs) ((mem_sortedSlots tets s2).mpr hs2) hne hkey
    have : s3 = s2 := hz s3 hp3
    exact this ▸ hp3
  exact ⟨conn_write_value tets (fun x => x % tets.length) hz hex _,
    conn_write_value tets (fun x => x / tets.length) hz hex _⟩

/-- A slot whose vertex triple occurs nowhere else keeps the initialization
`EToE[f, e] = e`, `EToF[f, e] = f`. -/
theorem conn_unpaired (tets : List Tet) (hcf : collisionFree tets)
    {s : Nat} (hs : s < 4 * tets.length)
    (huniq : ∀ s2, s2 < 4 * tets.length → faceRow tets s2 = faceRow tets s → s2 = s) :
    etoeFlat tets s = s % tets.length ∧ etofFlat tets s = s / tets.length := by
  have hnp : ∀ z, ¬((s, z) ∈ connPairs tets ∨ (z, s) ∈ connPairs tets) := by
    intro z hzp
    have hfacts : faceKey tets z = faceKey tets s ∧ z ∈ sortedSlots tets ∧ z ≠ s := by
      rcases hzp with h | h
      · obtain ⟨hk, _, hmz, hnez⟩ := connPairs_facts tets h
        exact ⟨hk.symm, hmz, fun hzs => hnez (hzs ▸ rfl)⟩
      · obtain ⟨hk, hmz, _, hnez⟩ := connPairs_facts tets h
        exact ⟨hk, hmz, hnez⟩
    obtain ⟨hk, hmz, hnez⟩ := hfacts
    have hzlt : z < 4 * tets.length := (mem_sortedSlots tets z).mp hmz
    exact hnez (huniq z hzlt (hcf z hzlt s hs hk))
  exact ⟨conn_no_write tets (fun x => x % tets.length) hnp _,
    conn_no_write tets (fun x => x / tets.length) hnp _⟩

/-! ## Slot arithmetic -/

theorem slot_lt {f e n : Nat} (hf : f < 4) (he : e < n) : f * n + e < 4 * n := by
  calc f * n + e < f * n + n := by omega
  _ = (f + 1) * n := by ring
  _ ≤ 4 * n := Nat.mul_le_mul_right n (by omega)

theorem slot_mod {f e n : Nat} (he : e < n) : (f * n + e) % n = e := by
  rw [Nat.add_comm, Nat.add_mul_mod_self_right, Nat.mod_eq_of_lt he]

theorem slot_div {f e n : Nat} (he : e < n) : (f * n + e) / n = f := by
  rw [Nat.mul_comm f n, Nat.mul_add_div (by omega), Nat.div_eq_of_lt he, Nat.add_zero]

theorem two_le_mult (tets : List Tet) {s s2 : Nat} (hs : s < 4 * tets.length)
    (hs2 : s2 < 4 * tets.length) (hne : s2 ≠ s)
    (hrow : faceRow tets s2 = faceRow tets s) : 2 ≤ faceMultiplicity tets s := by
  have hsub : [s2, s] ⊆ (List.range (4 * tets.length)).filter fun s3 =>
      decide (faceRow tets s3 = faceRow tets s) := by
    intro x hx
    rcases List.mem_cons.mp hx with h1 | h1
    · subst h1
      simp [List.mem_filter, List.mem_range, hs2, hrow]
    · rw [List.mem_singleton.mp h1]
      simp [List.mem_filter, List.mem_range, hs]
  have hnd : ([s2, s] : List Nat).Nodup :=
    List.nodup_cons.mpr ⟨fun h => hne (List.mem_singleton.mp h), List.nodup_singleton _⟩
  have := (List.subperm_of_subset hnd hsub).length_le
  unfold faceMultiplicity
  simpa using this

/-! ## Claim theorems: connectivity -/

/-- C1 counterexample: the claim is false as stated. On `tetsColl3` every
face vertex set occurs at most twice, yet neighbor symmetry fails at element
2, local face 0: its face (6,24,collV) hash-collides with the interior face
(0,1,2) shared by elements 0 and 1, the three slots become one sorted run,
and the chained pair writes leave `EToE[0,2] = 1` pointing at element 1
whose face-0 entry points back at element 0, not 2. -/
theorem C1_counterexample :
    multAtMost2 tetsColl3 ∧ EToE tetsColl3 0 2 ≠ 2 ∧
      ¬(EToE tetsColl3 (EToF tetsColl3 0 2) (EToE tetsColl3 0 2) = 2 ∧
        EToF tetsColl3 (EToF tetsColl3 0 2) (EToE tetsColl3 0 2) = 0) := by decide

/-- C1 (amended): for every tetrahedron array in which every face vertex
triple occurs at most twice among the 4N face slots AND the tuple hash is
collision-free on the face triples of this input, the returned (EToE, EToF)
satisfy neighbor symmetry: if `EToE[f,e] ≠ e` then
`EToE[EToF[f,e], EToE[f,e]] = e` and `EToF[EToF[f,e], EToE[f,e]] = f`. -/
theorem C1_amended (tets : List Tet) (hcf : collisionFree tets) (hm : multAtMost2 tets)
    (f e : Nat) (hf : f < 4) (he : e < tets.length) (hne : EToE tets f e ≠ e) :
    EToE tets (EToF tets f e) (EToE tets f e) = e ∧
      EToF tets (EToF tets f e) (EToE tets f e) = f := by
  have hs : f * tets.length + e < 4 * tets.length := slot_lt hf he
  by_cases hp : ∃ s2, s2 < 4 * tets.length ∧ s2 ≠ f * tets.length + e ∧
      faceRow tets s2 = faceRow tets (f * tets.length + e)
  · obtain ⟨s2, hs2, hne2, hrow⟩ := hp
    obtain ⟨hE, hF⟩ := conn_paired tets hcf hm hs hs2 (fun h => hne2 h.symm) hrow.symm
    obtain ⟨hE2, hF2⟩ := conn_paired tets hcf hm hs2 hs hne2 hrow
    have hEe : EToE tets f e = s2 % tets.length := hE
    have hFe : EToF tets f e = s2 / tets.length := hF
    constructor
    · rw [hEe, hFe]
      show etoeFlat tets (s2 / tets.length * tets.length + s2 % tets.length) = e
      rw [Nat.div_add_mod' s2 tets.length, hE2]
      exact slot_mod he
    · rw [hEe, hFe]
      show etofFlat tets (s2 / tets.length * tets.length + s2 % tets.length) = f
      rw [Nat.div_add_mod' s2 tets.length, hF2]
      exact slot_div he
  · push_neg at hp
    have huniq : ∀ s2, s2 < 4 * tets.length →
        faceRow tets s2 = faceRow tets (f * tets.length + e) → s2 = f * tets.length + e := by
      intro s2 h2 hrow
      by_contra hss
      exact (hp s2 h2 hss) hrow
    obtain ⟨hE, _⟩ := conn_unpaired tets hcf hs huniq
    exact absurd (hE.trans (slot_mod he)) hne

/-- C1 witness: on the two-tet mesh the hypotheses hold and symmetry is
verified at the interior face (local face 2 of element 0). -/
theorem C1_witness :
    collisionFree tetsTwo ∧ multAtMost2 tetsTwo ∧ EToE tetsTwo 2 0 ≠ 0 ∧
      (EToE tetsTwo (EToF tetsTwo 2 0) (EToE tetsTwo 2 0) = 0 ∧
        EToF tetsTwo (EToF tetsTwo 2 0) (EToE tetsTwo 2 0) = 2) :=
  ⟨by decide, by decide, by decide,
    C1_amended tetsTwo (by decide) (by decide) 2 0 (by decide) (by decide) (by decide)⟩

/-- C2 counterexample: the claim is false as stated. On `tetsColl2` the face
slots 0 and 1 carry the distinct sorted triples (0,1,2) and (6,24,collV),
yet their match keys (Python tuple hashes) are equal, and the pairing step
does pair them. -/
theorem C2_counterexample :
    faceKey tetsColl2 0 = faceKey tetsColl2 1 ∧ faceRow tetsColl2 0 ≠ faceRow tetsColl2 1 ∧
      (0, 1) ∈ connPairs tetsColl2 := by decide

/-- C2 (amended): equal sorted triples always give equal match keys (so no
two faces with the same vertex triple are ever left unpaired), but the
converse requires assuming the hash is collision-free on the input; under
that assumption every matched pair joins two distinct slots with the same
sorted triple, and every slot whose triple occurs at another slot is matched
into some pair. -/
theorem C2_amended (tets : List Tet) :
    (∀ s1 s2 : Nat, faceRow tets s1 = faceRow tets s2 → faceKey tets s1 = faceKey tets s2) ∧
      (collisionFree tets →
        (∀ p ∈ connPairs tets, p.1 ≠ p.2 ∧ faceRow tets p.1 = faceRow tets p.2) ∧
        (∀ s1 s2 : Nat, s1 < 4 * tets.length → s2 < 4 * tets.length → s1 ≠ s2 →
          faceRow tets s1 = faceRow tets s2 →
          ∃ s3, (s1, s3) ∈ connPairs tets ∨ (s3, s1) ∈ connPairs tets)) := by
  refine ⟨fun s1 s2 h => row_eq_key_eq tets h, fun hcf => ⟨?_, ?_⟩⟩
  · intro p hp
    obtain ⟨hk, h1, h2, hne⟩ := connPairs_facts tets hp
    exact ⟨hne, hcf p.1 ((mem_sortedSlots _ _).mp h1) p.2 ((mem_sortedSlots _ _).mp h2) hk⟩
  · intro s1 s2 h1 h2 hne hrow
    obtain ⟨s3, hp3, _, _, _⟩ := exists_adjacent_pair tets ((mem_sortedSlots _ _).mpr h1)
      ((mem_sortedSlots _ _).mpr h2) hne (row_eq_key_eq tets hrow)
    exact ⟨s3, hp3⟩

/-- C2 witness: on the two-tet mesh the pairing is collision-free and its
unique pair, slots 1 and 4, joins two distinct slots with equal triples. -/
theorem C2_witness :
    collisionFree tetsTwo ∧ ((1, 4) : Nat × Nat).1 ≠ (1, 4).2 ∧
      faceRow tetsTwo 1 = faceRow tetsTwo 4 :=
  ⟨by decide, ((C2_amended tetsTwo).2 (by decide)).1 (1, 4) (by decide)⟩

/-- C4 counterexample: the claim is false as stated. In `tetsTwoSame` both
tetrahedra use their local face 0 for the shared face (0,1,2), so
`EToF[0,0] = 0 = f` while `EToE[0,0] = 1 ≠ 0 = e`: the two self-reference
conditions do not coincide. -/
theorem C4_counterexample :
    ¬(EToE tetsTwoSame 0 0 = 0 ↔ EToF tetsTwoSame 0 0 = 0) := by decide

/-- C4 (amended): only the forward direction holds, and under the manifold
hypotheses: if the hash is collision-free, every triple occurs at most
twice, and no two faces of one element share a triple, then
`EToE[f,e] = e` implies `EToF[f,e] = f`. The converse is refuted by the
counterexample (a neighbor may use the same local face index). -/
theorem C4_amended (tets : List Tet) (hcf : collisionFree tets) (hm : multAtMost2 tets)
    (hd : facesOfDistinctElems tets) (f e : Nat) (hf : f < 4) (he : e < tets.length)
    (hee : EToE tets f e = e) : EToF tets f e = f := by
  have hs : f * tets.length + e < 4 * tets.length := slot_lt hf he
  by_cases hp : ∃ s2, s2 < 4 * tets.length ∧ s2 ≠ f * tets.length + e ∧
      faceRow tets s2 = faceRow tets (f * tets.length + e)
  · exfalso
    obtain ⟨s2, hs2, hne2, hrow⟩ := hp
    obtain ⟨hE, _⟩ := conn_paired tets hcf hm hs hs2 (fun h => hne2 h.symm) hrow.symm
    have hEe : EToE tets f e = s2 % tets.length := hE
    apply hd (f * tets.length + e) hs s2 hs2 (fun h => hne2 h.symm) hrow.symm
    rw [slot_mod he, ← hEe]
    exact hee.symm
  · push_neg at hp
    have huniq : ∀ s2, s2 < 4 * tets.length →
        faceRow tets s2 = faceRow tets (f * tets.length + e) → s2 = f * tets.length + e := by
      intro s2 h2 hrow
      by_contra hss
      exact (hp s2 h2 hss) hrow
    obtain ⟨_, hF⟩ := conn_unpaired tets hcf hs huniq
    exact hF.trans (slot_div he)

/-- C4 witness: a boundary face of the two-tet mesh. -/
theorem C4_witness :
    collisionFree tetsTwo ∧ multAtMost2 tetsTwo ∧ facesOfDistinctElems tetsTwo ∧
      EToE tetsTwo 1 0 = 0 ∧ EToF tetsTwo 1 0 = 1 :=
  ⟨by decide, by decide, by decide, by decide,
    C4_amended tetsTwo (by decide) (by decide) (by decide) 1 0 (by decide) (by decide)
      (by decide)⟩

/-- C6: on the two-element mesh tets = [[0,1,2,3],[1,2,3,4]] the returned
arrays have exactly one mutually-referencing non-self pair, local face 2 of
element 0 against local face 0 of element 1 (both the vertex set 1,2,3):
`EToE[2,0] = 1`, `EToF[2,0] = 0`, `EToE[0,1] = 0`, `EToF[0,1] = 2`, and the
other six face slots are self-referential, as the full matrices show. -/
theorem C6_two_tet_scenario :
    EToE tetsTwo 2 0 = 1 ∧ EToF tetsTwo 2 0 = 0 ∧ EToE tetsTwo 0 1 = 0 ∧
      EToF tetsTwo 0 1 = 2 ∧ etoeMatrix tetsTwo = [[0, 0], [0, 1], [1, 1], [0, 1]] ∧
      etofMatrix tetsTwo = [[0, 2], [1, 1], [0, 2], [3, 3]] := by decide

/-- C7 counterexample: the claim is false as stated. In `tetsColl2` the
vertex set (0,1,2) of slot 0 occurs exactly once in the mesh, yet the slot
does not keep its initialization: the hash collision with face (6,24,collV)
of element 1 pairs the two slots and `EToE[0,0]` becomes 1. -/
theorem C7_counterexample :
    faceMultiplicity tetsColl2 0 = 1 ∧ EToE tetsColl2 0 0 ≠ 0 := by decide

/-- C7 (amended): provided the hash is collision-free on the input, every
face slot whose vertex triple occurs exactly once keeps its initialization
`EToE[f,e] = e`, `EToF[f,e] = f` (the pairing writes target only matched
slots); in particular a single isolated tetrahedron yields
EToE = [[0,0,0,0]] and EToF = [[0,1,2,3]] (stored as (4,1) columns). -/
theorem C7_amended :
    (∀ tets : List Tet, collisionFree tets → ∀ f e : Nat, f < 4 → e < tets.length →
      faceMultiplicity tets (f * tets.length + e) = 1 →
      EToE tets f e = e ∧ EToF tets f e = f) ∧
      etoeMatrix tetsSingle = [[0], [0], [0], [0]] ∧
      etofMatrix tetsSingle = [[0], [1], [2], [3]] := by
  refine ⟨?_, by decide, by decide⟩
  intro tets hcf f e hf he hmult
  have hs : f * tets.length + e < 4 * tets.length := slot_lt hf he
  have huniq : ∀ s2, s2 < 4 * tets.length →
      faceRow tets s2 = faceRow tets (f * tets.length + e) → s2 = f * tets.length + e := by
    intro s2 h2 hrow
    by_contra hne
    have := two_le_mult tets hs h2 hne hrow
    omega
  obtain ⟨hE, hF⟩ := conn_unpaired tets hcf hs huniq
  exact ⟨hE.trans (slot_mod he), hF.trans (slot_div he)⟩

/-- C7 witness: the single-tet mesh, local face 2. -/
theorem C7_witness :
    collisionFree tetsSingle ∧
      faceMultiplicity tetsSingle (2 * tetsSingle.length + 0) = 1 ∧
      (EToE tetsSingle 2 0 = 0 ∧ EToF tetsSingle 2 0 = 2) :=
  ⟨by decide, by decide,
    C7_amended.1 tetsSingle (by decide) 2 0 (by decide) (by decide) (by decide)⟩


/-! ## Vertex relabeling: sort3 canonicity and transfer lemmas -/

theorem triple_comm_12 (x y z : Nat) : ({x, y, z} : Multiset Nat) = {y, x, z} :=
  Multiset.cons_swap x y {z}

theorem triple_comm_23 (x y z : Nat) : ({x, y, z} : Multiset Nat) = {x, z, y} :=
  congrArg (x ::ₘ ·) (Multiset.pair_comm y z)

theorem sort3_mset (a b c : Nat) :
    ({(sort3 a b c).1, (sort3 a b c).2.1, (sort3 a b c).2.2} : Multiset Nat) = {a, b, c} := by
  unfold sort3
  split_ifs <;> dsimp only
  · exact triple_comm_23 a c b
  · exact (triple_comm_12 c a b).trans (triple_comm_23 a c b)
  · exact triple_comm_12 b a c
  · exact (triple_comm_23 b c a).trans (triple_comm_12 b a c)
  · exact (triple_comm_12 c b a).trans ((triple_comm_23 b c a).trans (triple_comm_12 b a c))

theorem sort3_sorted (a b c : Nat) :
    (sort3 a b c).1 ≤ (sort3 a b c).2.1 ∧ (sort3 a b c).2.1 ≤ (sort3 a b c).2.2 := by
  unfold sort3
  split_ifs <;> dsimp only <;> omega

theorem sorted_triple_eq (x1 y1 z1 x2 y2 z2 : Nat) (h1 : x1 ≤ y1 ∧ y1 ≤ z1)
    (h2 : x2 ≤ y2 ∧ y2 ≤ z2) (hm : ({x1, y1, z1} : Multiset Nat) = {x2, y2, z2}) :
    (x1, y1, z1) = (x2, y2, z2) := by
  have hperm : List.Perm [x1, y1, z1] [x2, y2, z2] := by
    rw [← Multiset.coe_eq_coe]
    exact hm
  have hs1 : List.Sorted (· ≤ ·) [x1, y1, z1] := by simp [List.sorted_cons]; omega
  have hs2 : List.Sorted (· ≤ ·) [x2, y2, z2] := by simp [List.sorted_cons]; omega
  have h3 := List.eq_of_perm_of_sorted hperm hs1 hs2
  simp only [List.cons.injEq, and_true] at h3
  exact Prod.ext h3.1 (Prod.ext h3.2.1 h3.2.2)

theorem sort3_eq_iff (a b c d e f : Nat) :
    sort3 a b c = sort3 d e f ↔ ({a, b, c} : Multiset Nat) = {d, e, f} := by
  constructor
  · intro h
    rw [← sort3_mset a b c, ← sort3_mset d e f, h]
  · intro h
    have hm2 : ({(sort3 a b c).1, (sort3 a b c).2.1, (sort3 a b c).2.2} : Multiset Nat) =
        {(sort3 d e f).1, (sort3 d e f).2.1, (sort3 d e f).2.2} := by
      rw [sort3_mset, sort3_mset]
      exact h
    exact sorted_triple_eq _ _ _ _ _ _ (sort3_sorted a b c) (sort3_sorted d e f) hm2

theorem mset3_map_iff (p : Nat → Nat) (hp : Function.Injective p) (a b c d e f : Nat) :
    ({p a, p b, p c} : Multiset Nat) = {p d, p e, p f} ↔
      ({a, b, c} : Multiset Nat) = {d, e, f} := by
  constructor
  · intro h
    apply Multiset.map_injective hp
    simpa using h
  · intro h
    have h2 := congrArg (Multiset.map p) h
    simpa using h2

theorem relabel_length (p : Nat → Nat) (tets : List Tet) :
    (relabel p tets).length = tets.length := List.length_map _ _

theorem getD_relabel (p : Nat → Nat) (tets : List Tet) (i : Nat) (hi : i < tets.length) :
    (relabel p tets).getD i defaultTet = relabelTet p (tets.getD i defaultTet) := by
  unfold relabel
  rw [List.getD_eq_getElem?_getD, List.getElem?_map, List.getElem?_eq_getElem hi,
    List.getD_eq_getElem?_getD, List.getElem?_eq_getElem hi]
  rfl

theorem tetFace_relabel (p : Nat → Nat) (t : Tet) (k : Nat) :
    tetFace (relabelTet p t) k =
      (p (tetFace t k).1, p (tetFace t k).2.1, p (tetFace t k).2.2) :=
  match k with
  | 0 => rfl
  | 1 => rfl
  | 2 => rfl
  | (_ + 3) => rfl

theorem faceRow_relabel (p : Nat → Nat) (tets : List Tet) (s : Nat)
    (hs : s < 4 * tets.length) :
    faceRow (relabel p tets) s =
      sort3 (p (tetFace (tets.getD (s % tets.length) defaultTet) (s / tets.length)).1)
        (p (tetFace (tets.getD (s % tets.length) defaultTet) (s / tets.length)).2.1)
        (p (tetFace (tets.getD (s % tets.length) defaultTet) (s / tets.length)).2.2) := by
  have hN : 0 < tets.length := by
    rcases Nat.eq_zero_or_pos tets.length with h | h
    · rw [h] at hs; omega
    · exact h
  unfold faceRow
  rw [relabel_length, getD_relabel p tets _ (Nat.mod_lt _ hN), tetFace_relabel]

theorem faceRow_relabel_eq_iff (p : Nat → Nat) (hp : Function.Injective p) (tets : List Tet)
    (s1 s2 : Nat) (h1 : s1 < 4 * tets.length) (h2 : s2 < 4 * tets.length) :
    (faceRow (relabel p tets) s1 = faceRow (relabel p tets) s2 ↔
      faceRow tets s1 = faceRow tets s2) := by
  rw [faceRow_relabel p tets s1 h1, faceRow_relabel p tets s2 h2]
  unfold faceRow
  rw [sort3_eq_iff, sort3_eq_iff, mset3_map_iff p hp]

theorem faceMultiplicity_relabel (p : Nat → Nat) (hp : Function.Injective p) (tets : List Tet)
    (s : Nat) (hs : s < 4 * tets.length) :
    faceMultiplicity (relabel p tets) s = faceMultiplicity tets s := by
  unfold faceMultiplicity
  rw [relabel_length]
  apply congrArg List.length
  apply List.filter_congr
  intro x hx
  rw [List.mem_range] at hx
  simp only [decide_eq_decide]
  exact faceRow_relabel_eq_iff p hp tets x s hx hs

theorem multAtMost2_relabel (p : Nat → Nat) (hp : Function.Injective p) (tets : List Tet)
    (hm : multAtMost2 tets) : multAtMost2 (relabel p tets) := by
  intro s hs
  rw [relabel_length] at hs
  rw [faceMultiplicity_relabel p hp tets s hs]
  exact hm s hs

/-- C8 (amended): for every tetrahedron array and injective vertex
relabeling `p`, provided the tuple hash is collision-free on both the
original and the relabeled face triples and every face triple occurs at
most twice, running the connectivity computation on the relabeled array
yields the very same EToE and EToF: the adjacency depends only on the mesh
topology. (The multiplicity bound is needed because with three or more
equal keys the pairing depends on `argsort`'s unspecified tie order; the
collision-freeness is what the counterexample forces.) -/
theorem C8_amended (tets : List Tet) (p : Nat → Nat) (hp : Function.Injective p)
    (hcf : collisionFree tets) (hcf2 : collisionFree (relabel p tets))
    (hm : multAtMost2 tets) (f e : Nat) (hf : f < 4) (he : e < tets.length) :
    EToE (relabel p tets) f e = EToE tets f e ∧ EToF (relabel p tets) f e = EToF tets f e := by
  have hm2 : multAtMost2 (relabel p tets) := multAtMost2_relabel p hp tets hm
  have hs : f * tets.length + e < 4 * tets.length := slot_lt hf he
  have hlen : (relabel p tets).length = tets.length := relabel_length p tets
  have hEdef : EToE (relabel p tets) f e = etoeFlat (relabel p tets) (f * tets.length + e) := by
    unfold EToE
    rw [hlen]
  have hFdef : EToF (relabel p tets) f e = etofFlat (relabel p tets) (f * tets.length + e) := by
    unfold EToF
    rw [hlen]
  by_cases hpart : ∃ s2, s2 < 4 * tets.length ∧ s2 ≠ f * tets.length + e ∧
      faceRow tets s2 = faceRow tets (f * tets.length + e)
  · obtain ⟨s2, hs2, hne2, hrow⟩ := hpart
    obtain ⟨hE1, hF1⟩ := conn_paired tets hcf hm hs hs2 (fun h => hne2 h.symm) hrow.symm
    have hrow2 : faceRow (relabel p tets) (f * tets.length + e) = faceRow (relabel p tets) s2 :=
      (faceRow_relabel_eq_iff p hp tets _ s2 hs hs2).mpr hrow.symm
    obtain ⟨hE2, hF2⟩ := conn_paired (relabel p tets) hcf2 hm2
      (by rw [hlen]; exact hs) (by rw [hlen]; exact hs2) (fun h => hne2 h.symm) hrow2
    rw [hlen] at hE2 hF2
    constructor
    · rw [hEdef, hE2]
      exact hE1.symm
    · rw [hFdef, hF2]
      exact hF1.symm
  · push_neg at hpart
    have huniq : ∀ s2, s2 < 4 * tets.length →
        faceRow tets s2 = faceRow tets (f * tets.length + e) → s2 = f * tets.length + e := by
      intro s2 h2 hrow
      by_contra hss
      exact (hpart s2 h2 hss) hrow
    obtain ⟨hE1, hF1⟩ := conn_unpaired tets hcf hs huniq
    have huniq2 : ∀ s2, s2 < 4 * (relabel p tets).length →
        faceRow (relabel p tets) s2 = faceRow (relabel p tets) (f * tets.length + e) →
        s2 = f * tets.length + e := by
      intro s2 h2 hrow
      rw [hlen] at h2
      exact huniq s2 h2 ((faceRow_relabel_eq_iff p hp tets s2 _ h2 hs).mp hrow)
    obtain ⟨hE2, hF2⟩ := conn_unpaired (relabel p tets) hcf2 (by rw [hlen]; exact hs) huniq2
    rw [hlen] at hE2 hF2
    constructor
    · rw [hEdef, hE2]
      exact hE1.symm
    · rw [hFdef, hF2]
      exact hF1.symm

theorem swapTwo_injective (i j : Nat) : Function.Injective (swapTwo i j) := by
  intro a b h
  unfold swapTwo at h
  split_ifs at h <;> omega

/-- C8 counterexample: the claim is false as stated. Relabeling `tetsColl2`
by the transposition of `collV` and `collV + 1` (a permutation of the global
vertex namespace) destroys the hash collision between faces (0,1,2) and
(6,24,collV): on the original input the two slots are (wrongly) paired and
`EToE[0,0] = 1`, on the relabeled input both faces stay boundary and
`EToE[0,0] = 0`, so the arrays are not the same. -/
theorem C8_counterexample :
    Function.Injective (swapTwo collV (collV + 1)) ∧
      EToE (relabel (swapTwo collV (collV + 1)) tetsColl2) 0 0 ≠ EToE tetsColl2 0 0 :=
  ⟨swapTwo_injective _ _, by decide⟩

/-- C8 witness: the transposition of vertices 100 and 101 fixes the two-tet
mesh, the hypotheses are verified by evaluation, and the theorem yields the
equality of the adjacency entries at the interior face. -/
theorem C8_witness :
    collisionFree tetsTwo ∧ collisionFree (relabel (swapTwo 100 101) tetsTwo) ∧
      multAtMost2 tetsTwo ∧
      (EToE (relabel (swapTwo 100 101) tetsTwo) 2 0 = EToE tetsTwo 2 0 ∧
        EToF (relabel (swapTwo 100 101) tetsTwo) 2 0 = EToF tetsTwo 2 0) :=
  ⟨by decide, by decide, by decide,
    C8_amended tetsTwo (swapTwo 100 101) (swapTwo_injective _ _) (by decide) (by decide)
      (by decide) 2 0 (by decide) (by decide)⟩


/-! ## Claim theorems: construction validation -/

/-! Sorted-list facts used by the label-consistency analysis. -/

theorem sortInts_sorted (l : List Int) : (sortInts l).Sorted (· ≤ ·) :=
  List.sorted_insertionSort _ _

theorem sortInts_perm (l : List Int) : List.Perm (sortInts l) l :=
  List.perm_insertionSort _ _

theorem mem_sortInts (l : List Int) (x : Int) : x ∈ sortInts l ↔ x ∈ l :=
  List.mem_insertionSort _

theorem dedupSorted_sorted (l : List Int) : (dedupSorted l).Sorted (· ≤ ·) :=
  (sortInts_sorted l).sublist (List.dedup_sublist _)

theorem dedupSorted_nodup (l : List Int) : (dedupSorted l).Nodup :=
  List.nodup_dedup _

theorem mem_dedupSorted (l : List Int) (x : Int) : x ∈ dedupSorted l ↔ x ∈ l := by
  unfold dedupSorted
  rw [List.mem_dedup, mem_sortInts]

theorem labelCheck_iff (md : RawMeshData) (bc : List (String × Int)) :
    sortInts (bc.map fun kv => kv.2) = dedupSorted md.triCodes ↔
      ((bc.map fun kv => kv.2).Nodup ∧ sameCodeSets md bc) := by
  constructor
  · intro h
    refine ⟨?_, ?_, ?_⟩
    · have h1 : (sortInts (bc.map fun kv => kv.2)).Nodup := by
        rw [h]; exact dedupSorted_nodup _
      exact (sortInts_perm _).nodup_iff.mp h1
    · intro c hc
      have h1 : c ∈ dedupSorted md.triCodes := (mem_dedupSorted _ _).mpr hc
      rw [← h] at h1
      exact (mem_sortInts _ _).mp h1
    · intro kv hkv
      have h1 : kv.2 ∈ sortInts (bc.map fun kv => kv.2) := by
        rw [mem_sortInts]
        exact List.mem_map.mpr ⟨kv, hkv, rfl⟩
      rw [h] at h1
      exact (mem_dedupSorted _ _).mp h1
  · rintro ⟨hnd, hsets⟩
    have hnd1 : (sortInts (bc.map fun kv => kv.2)).Nodup := (sortInts_perm _).nodup_iff.mpr hnd
    have hmem : ∀ x : Int, x ∈ sortInts (bc.map fun kv => kv.2) ↔ x ∈ dedupSorted md.triCodes := by
      intro x
      rw [mem_sortInts, mem_dedupSorted]
      constructor
      · intro hx
        obtain ⟨kv, hkv, hkx⟩ := List.mem_map.mp hx
        exact hkx ▸ hsets.2 kv hkv
      · intro hx
        exact hsets.1 x hx
    have hperm : List.Perm (sortInts (bc.map fun kv => kv.2)) (dedupSorted md.triCodes) :=
      (List.subperm_of_subset hnd1 fun x hx => (hmem x).mp hx).antisymm
        (List.subperm_of_subset (dedupSorted_nodup _) fun x hx => (hmem x).mpr hx)
    exact List.eq_of_perm_of_sorted hperm (sortInts_sorted _) (dedupSorted_sorted _)

/-- C3 (amended): construction fails with the labeling-consistency
ValueError if and only if the label map's values are not pairwise distinct
or the set of numeric codes in the mesh differs (in either direction) from
the set of values of BC_labels; the check compares the sorted value list
(with multiplicity) against the sorted deduplicated code list, so a label
map assigning one code to two labels also fails. The check sits before the
boundary partitioning and the connectivity computation, and on failure only
the error is returned: no partial Mesh is produced. -/
theorem C3_amended (md : RawMeshData) (bc : List (String × Int)) :
    exceptIsOk (initFromFile md bc) = false ↔
      ¬((bc.map fun kv => kv.2).Nodup ∧ sameCodeSets md bc) := by
  unfold initFromFile
  by_cases hc : sortInts (bc.map fun kv => kv.2) = dedupSorted md.triCodes
  · rw [if_pos hc]
    simp only [exceptIsOk]
    constructor
    · intro h
      exact absurd h (by simp)
    · intro h
      exact absurd ((labelCheck_iff md bc).mp hc) h
  · rw [if_neg hc]
    simp only [exceptIsOk]
    constructor
    · intro _
      intro hl
      exact hc ((labelCheck_iff md bc).mpr hl)
    · intro _
      trivial

/-- C3 counterexample: the claim is false as stated. With
`bcDup = [(a,1), (b,1)]` the set of values of the label map equals the set
of codes in the mesh (both are the single code 1), yet construction fails:
`sorted(BC_labels.values()) = [1, 1]` differs from
`sorted(numpy.unique(codes)) = [1]`, so the ValueError is raised although
the sets coincide. -/
theorem C3_counterexample :
    sameCodeSets mdDup bcDup ∧ exceptIsOk (initFromFile mdDup bcDup) = false := by
  constructor
  · decide
  · decide

/-- C3 witness: the amended equivalence applied at the concrete duplicated
label map. -/
theorem C3_witness : exceptIsOk (initFromFile mdDup bcDup) = false :=
  (C3_amended mdDup bcDup).mpr (by decide)


/-! ## Claim theorems: mesh equality and totality -/

theorem mem_of_lookupStr_some {α : Type} {k : String} {v : α} {d : List (String × α)}
    (h : lookupStr k d = some v) : (k, v) ∈ d := by
  induction d with
  | nil => simp [lookupStr] at h
  | cons kv rest ih =>
      unfold lookupStr at h
      split_ifs at h with hk
      · obtain ⟨rfl⟩ := Option.some.inj h
        rw [← hk]
        exact List.mem_cons_self _ _
      · exact List.mem_cons_of_mem _ (ih h)

theorem lookupStr_some_of_mem {α : Type} {k : String} {v : α} {d : List (String × α)}
    (hnd : (d.map fun kv => kv.1).Nodup) (hm : (k, v) ∈ d) : lookupStr k d = some v := by
  induction d with
  | nil => simp at hm
  | cons kv rest ih =>
      rw [List.map_cons, List.nodup_cons] at hnd
      unfold lookupStr
      rcases List.mem_cons.mp hm with h1 | h1
      · rw [← h1]
        simp
      · split_ifs with hk
        · exfalso
          apply hnd.1
          rw [hk]
          exact List.mem_map.mpr ⟨(k, v), h1, rfl⟩
        · exact ih hnd.2 h1

theorem lookupStr_none_iff {α : Type} {k : String} {d : List (String × α)} :
    lookupStr k d = none ↔ k ∉ d.map fun kv => kv.1 := by
  induction d with
  | nil => simp [lookupStr]
  | cons kv rest ih =>
      unfold lookupStr
      rw [List.map_cons, List.mem_cons]
      split_ifs with hk
      · simp [hk]
      · rw [ih]
        constructor
        · intro h hor
          rcases hor with h1 | h1
          · exact hk h1.symm
          · exact h h1
        · intro h h1
          exact h (Or.inr h1)

theorem lookupStr_isSome_of_mem_keys {α : Type} {k : String} {d : List (String × α)}
    (h : k ∈ d.map fun kv => kv.1) : ∃ v, lookupStr k d = some v := by
  cases hl : lookupStr k d with
  | none => exact absurd (lookupStr_none_iff.mp hl) (by simpa using h)
  | some v => exact ⟨v, rfl⟩

theorem mem_keys_of_lookupStr_some {α : Type} {k : String} {v : α} {d : List (String × α)}
    (h : lookupStr k d = some v) : k ∈ d.map fun kv => kv.1 :=
  List.mem_map.mpr ⟨(k, v), mem_of_lookupStr_some h, rfl⟩

theorem dictEqCounts_lookup {d1 d2 : List (String × Nat)} (h : dictEqCounts d1 d2) (k : String) :
    lookupStr k d1 = lookupStr k d2 := by
  cases h1 : lookupStr k d1 with
  | some v => exact (h.1 (k, v) (mem_of_lookupStr_some h1)).symm
  | none =>
      cases h2 : lookupStr k d2 with
      | none => rfl
      | some w => exact absurd (h.2 (k, w) (mem_of_lookupStr_some h2)) (by simp [h1])

theorem dictEqCounts_of_lookup {d1 d2 : List (String × Nat)}
    (hnd1 : (d1.map fun kv => kv.1).Nodup) (hnd2 : (d2.map fun kv => kv.1).Nodup)
    (h : ∀ k, lookupStr k d1 = lookupStr k d2) : dictEqCounts d1 d2 := by
  constructor
  · intro kv hm
    rw [← h kv.1]
    exact lookupStr_some_of_mem hnd1 hm
  · intro kv hm
    rw [h kv.1]
    exact lookupStr_some_of_mem hnd2 hm

theorem bcTrianglesEq_some_true_iff (l1 l2 : List (String × List Tri)) :
    bcTrianglesEq l1 l2 = some true ↔ ∀ kv ∈ l1, lookupStr kv.1 l2 = some kv.2 := by
  induction l1 with
  | nil => simp [bcTrianglesEq]
  | cons kv rest ih =>
      unfold bcTrianglesEq
      cases hl : lookupStr kv.1 l2 with
      | none =>
          simp only []
          constructor
          · intro h
            exact absurd h (by simp)
          · intro h
            exact absurd (h kv (List.mem_cons_self _ _)) (by simp [hl])
      | some arr2 =>
          simp only []
          split_ifs with he
          · rw [ih]
            constructor
            · intro h kv2 hm2
              rcases List.mem_cons.mp hm2 with h1 | h1
              · rw [h1, hl, he]
              · exact h kv2 h1
            · intro h kv2 hm2
              exact h kv2 (List.mem_cons_of_mem _ hm2)
          · constructor
            · intro h
              exact absurd h (by simp)
            · intro h
              have h2 := h kv (List.mem_cons_self _ _)
              rw [hl] at h2
              exact absurd (Option.some.inj h2).symm he

theorem bcTrianglesEq_isSome (l1 l2 : List (String × List Tri))
    (h : ∀ kv ∈ l1, kv.1 ∈ l2.map fun kv2 => kv2.1) : (bcTrianglesEq l1 l2).isSome = true := by
  induction l1 with
  | nil => rfl
  | cons kv rest ih =>
      obtain ⟨v, hv⟩ := lookupStr_isSome_of_mem_keys (h kv (List.mem_cons_self _ _))
      unfold bcTrianglesEq
      rw [hv]
      show (if kv.2 = v then bcTrianglesEq rest l2 else some false).isSome = true
      split_ifs with he
      · exact ih fun kv2 hm2 => h kv2 (List.mem_cons_of_mem _ hm2)
      · rfl

/-- C5: two Mesh objects compare equal under == if and only if their vertex
and element counts match, their per-label boundary-triangle counts agree as
finite maps, and their vertex, tet and per-label boundary-triangle arrays
are element-wise equal; the adjacency arrays EToE/EToF play no role in the
comparison (replacing them on both operands leaves the result unchanged),
and changing a single vertex coordinate makes the comparison return False.
Both operands are assumed well-formed as the constructor produces them
(matching dict key sequences, distinct keys). -/
theorem C5_mesh_equality (m1 m2 : Mesh) (h1 : meshWF m1) (h2 : meshWF m2) :
    ((meshEqOpt m1 m2 = some true) ↔ rawComponentsMatch m1 m2) ∧
      (∀ E1 F1 E2 F2 : List (List Nat),
        meshEqOpt { m1 with EToE := E1, EToF := F1 } { m2 with EToE := E2, EToF := F2 } =
          meshEqOpt m1 m2) ∧
      (∀ i j : Nat, ∀ x : Int, i < m1.vertices.length →
        j < (m1.vertices.getD i []).length → x ≠ (m1.vertices.getD i []).getD j 0 →
        meshEqOpt m1 (setCoord m1 i j x) = some false) := by
  obtain ⟨hk1, hn1⟩ := h1
  obtain ⟨hk2, hn2⟩ := h2
  refine ⟨?_, ?_, ?_⟩
  · unfold meshEqOpt
    split_ifs with hc
    · obtain ⟨hv, ht, hd, hvv, htt⟩ := hc
      rw [bcTrianglesEq_some_true_iff]
      constructor
      · intro h
        refine ⟨hv, ht, fun k => dictEqCounts_lookup hd k, hvv, htt, ?_⟩
        intro k
        cases hl : lookupStr k m1.BC_triangles with
        | some v => exact (h (k, v) (mem_of_lookupStr_some hl)).symm
        | none =>
            have hnk1 : k ∉ m1.BC_triangles.map fun kv => kv.1 := lookupStr_none_iff.mp hl
            rw [hk1] at hnk1
            have hl1 : lookupStr k m1.N_BC_triangles = none := lookupStr_none_iff.mpr hnk1
            have hl2 : lookupStr k m2.N_BC_triangles = none := by
              rw [← dictEqCounts_lookup hd k]
              exact hl1
            have hnk2 : k ∉ m2.N_BC_triangles.map fun kv => kv.1 := lookupStr_none_iff.mp hl2
            rw [← hk2] at hnk2
            rw [lookupStr_none_iff.mpr hnk2]
      · rintro ⟨_, _, _, _, _, hbc⟩
        intro kv hm
        rw [← hbc kv.1]
        apply lookupStr_some_of_mem _ hm
        rw [hk1]
        exact hn1
    · constructor
      · intro h
        exact absurd h (by simp)
      · rintro ⟨hv, ht, hdl, hvv, htt, _⟩
        exact absurd ⟨hv, ht, dictEqCounts_of_lookup hn1 hn2 hdl, hvv, htt⟩ hc
  · intro E1 F1 E2 F2
    rfl
  · intro i j x hi hj hx
    unfold meshEqOpt
    rw [if_neg]
    intro hcon
    obtain ⟨_, _, _, hvv, _⟩ := hcon
    have h3 : m1.vertices[i]? = (m1.vertices.set i ((m1.vertices.getD i []).set j x))[i]? :=
      congrArg (fun l => l[i]?) hvv
    rw [List.getElem?_set_self hi] at h3
    have h4 : m1.vertices[i]? = some (m1.vertices.getD i []) := by
      rw [List.getD_eq_getElem?_getD, List.getElem?_eq_getElem hi]
      rfl
    rw [h4] at h3
    have h5 : m1.vertices.getD i [] = (m1.vertices.getD i []).set j x := Option.some.inj h3
    have h6 : ((m1.vertices.getD i []).set j x)[j]? = some x := List.getElem?_set_self hj
    have h8 : (m1.vertices.getD i [])[j]? = some x := by
      rw [h5]
      exact h6
    have h9 : (m1.vertices.getD i [])[j]? = some ((m1.vertices.getD i []).getD j 0) := by
      generalize hrow : m1.vertices.getD i [] = row at hj
      rw [List.getD_eq_getElem?_getD, List.getElem?_eq_getElem hj]
      rfl
    exact hx (Option.some.inj (h9.symm.trans h8)).symm

/-- C10: `Mesh.__eq__` is total at the public interface: comparing a mesh
with any non-Mesh value returns False (the isinstance branch) without
evaluating anything else, and comparing two well-formed Mesh instances
never raises: the per-label `other.BC_triangles[key]` lookup is reached
only after the `N_BC_triangles` dicts compared equal, which forces every
key of self's `BC_triangles` to be present in other's, so the result is
always `some` (never the `none` that models a KeyError). -/
theorem C10_eq_total :
    (∀ (m : Mesh) (d : String), meshEqPy m (PyValue.pyOther d) = some false) ∧
      (∀ m1 m2 : Mesh, meshWF m1 → meshWF m2 → (meshEqOpt m1 m2).isSome = true) := by
  constructor
  · intro m d
    rfl
  · intro m1 m2 h1 h2
    obtain ⟨hk1, _⟩ := h1
    obtain ⟨hk2, _⟩ := h2
    unfold meshEqOpt
    split_ifs with hc
    · apply bcTrianglesEq_isSome
      intro kv hm
      have hkk : kv.1 ∈ m1.N_BC_triangles.map fun kv2 => kv2.1 := by
        rw [← hk1]
        exact List.mem_map.mpr ⟨kv, hm, rfl⟩
      obtain ⟨c, hcv⟩ := lookupStr_isSome_of_mem_keys hkk
      have hcv2 : lookupStr kv.1 m2.N_BC_triangles = some c := by
        rw [← dictEqCounts_lookup hc.2.2.1 kv.1]
        exact hcv
      have hmem2 := mem_keys_of_lookupStr_some hcv2
      rw [← hk2] at hmem2
      exact hmem2
    · rfl

/-- C5 witness: a concrete well-formed mesh compared with itself-with-junk-
adjacency: the raw components match, so the comparison yields True even
though EToE/EToF differ. -/
theorem C5_witness : meshWF meshA ∧ meshWF meshB ∧ meshEqOpt meshA meshB = some true :=
  ⟨by decide, by decide,
    (C5_mesh_equality meshA meshB (by decide) (by decide)).1.mpr
      ⟨rfl, rfl, fun _ => rfl, rfl, rfl, fun _ => rfl⟩⟩

/-- C10 witness: a non-Mesh right operand yields False, and the comparison
of a concrete well-formed mesh with itself is defined (no KeyError). -/
theorem C10_witness :
    meshEqPy meshA (PyValue.pyOther "an int, say") = some false ∧
      (meshEqOpt meshA meshA).isSome = true :=
  ⟨C10_eq_total.1 meshA "an int, say", C10_eq_total.2 meshA meshA (by decide) (by decide)⟩

/-! ## Claim theorem: the input array is not mutated -/

theorem heap_get_append (l : Heap) (v : NpValue) (n : Nat) (hn : n < l.length) :
    (l ++ [v])[n]? = l[n]? := List.getElem?_append_left hn

theorem heap_get_set (l : Heap) (i : Nat) (v : NpValue) (n : Nat) (hn : n ≠ i) :
    (l.set i v)[n]? = l[n]? := List.getElem?_set_ne (fun h => hn h.symm)

/-- C9: `Mesh.__compute_element_connectivity` does not mutate its input:
in the heap model of the routine, `numpy.vstack` allocates the fresh
`face_vertices` array and the in-place vertex sort as well as the
fancy-index assignments write only to the freshly allocated cells, so after
the call the array stored at the input reference `tetsRef` is unchanged
(hence `Mesh.tets` and the `EToV` view of it are untouched). -/
theorem C9_no_input_mutation (h : Heap) (tetsRef : Nat) (htr : tetsRef < h.length) :
    (computeConnectivityHeap h tetsRef)[tetsRef]? = h[tetsRef]? := by
  unfold computeConnectivityHeap
  simp only []
  rw [heap_get_set, heap_get_set, heap_get_append, heap_get_append, heap_get_append,
    heap_get_append, heap_get_append, heap_get_append, heap_get_set, heap_get_append]
  all_goals try simp only [List.length_append, List.length_set, List.length_singleton]
  all_goals omega

/-- C9 witness: a one-cell heap holding a tet array. -/
theorem C9_witness :
    (computeConnectivityHeap [NpValue.tetArray [⟨0, 1, 2, 3⟩]] 0)[0]? =
      ([NpValue.tetArray [⟨0, 1, 2, 3⟩]] : Heap)[0]? :=
  C9_no_input_mutation [NpValue.tetArray [⟨0, 1, 2, 3⟩]] 0 (by decide)

end EdgAcoustics
